import Mathlib

/-!
Shallow embedding of the `searchFile` Obsidian plugin (`src/main.ts`):
the in-memory content index (`ContentIndex`), the query enumeration and
ranking of `FileSearchModal.getSuggestions`, and the vault-event
dispatcher registered in `FileSearchPlugin.onload`.

JS strings are modelled as `List Char`; the `textByPath : Map<string, string>`
is modelled as an association list keyed by path; the outcome of the
asynchronous `vault.cachedRead` is passed to the indexing functions
explicitly as an `Option` (`none` means the read threw).
-/

set_option maxRecDepth 4000

namespace SearchFile

/-- Characters of a JS string. -/
abbrev Str := List Char

/-- JS `String.prototype.toLowerCase`, modelled characterwise. -/
def toLowerStr (s : Str) : Str := s.map Char.toLower

/-- The JS whitespace class used by the regex in `findSnippet`. -/
def isWs (c : Char) : Bool := c.isWhitespace

/-- JS `snippet.replace(/\s+/g, " ")`: collapse every whitespace run to one space. -/
def collapseWs : Str → Str
  | [] => []
  | [c] => if isWs c then [' '] else [c]
  | c :: d :: rest =>
    if isWs c && isWs d then collapseWs (d :: rest)
    else (if isWs c then ' ' else c) :: collapseWs (d :: rest)

/-- JS `String.prototype.trim`. -/
def trimWs (s : Str) : Str := ((s.dropWhile isWs).reverse.dropWhile isWs).reverse

/-- JS `text.indexOf(pat)`, with `none` for `-1`. -/
def indexOfSubstr (pat : Str) : Str → Option Nat
  | [] => if pat.isPrefixOf [] then some 0 else none
  | c :: rest =>
    if pat.isPrefixOf (c :: rest) then some 0
    else (indexOfSubstr pat rest).map (fun n => n + 1)

/-- JS `s.includes(pat)`. -/
def strIncludes (s pat : Str) : Bool := (indexOfSubstr pat s).isSome

/-- Model of JS `String.prototype.localeCompare` as code-point lexicographic
comparison returning the sign used by the ranking comparator. -/
def lexCompare : Str → Str → Int
  | [], [] => 0
  | [], _ :: _ => -1
  | _ :: _, [] => 1
  | a :: as, b :: bs =>
    if a.toNat < b.toNat then -1
    else if b.toNat < a.toNat then 1
    else lexCompare as bs

/-- Obsidian `TFile`, restricted to the fields the plugin reads.
`statSize` is `none` when `file.stat?.size` is not a number. -/
structure TFile where
  path : Str
  extension : Str
  statSize : Option Nat
deriving DecidableEq

/-- The `textByPath` map of `ContentIndex`, as an association list keyed by path. -/
abbrev IndexMap := List (Str × Str)

/-- JS `Map.get`. -/
def lookupPath (p : Str) : IndexMap → Option Str
  | [] => none
  | (k, v) :: rest => if k = p then some v else lookupPath p rest

/-- JS `Map.delete`. -/
def eraseKey (p : Str) : IndexMap → IndexMap
  | [] => []
  | (k, v) :: rest => if k = p then eraseKey p rest else (k, v) :: eraseKey p rest

/-- JS `Map.set` (overwrites any prior value for the key). -/
def insertKey (p v : Str) (m : IndexMap) : IndexMap := (p, v) :: eraseKey p m

/-- `maxFileBytes = 1_000_000` of `ContentIndex`. -/
def maxFileBytes : Nat := 1000000

/-- `indexExtensions = new Set(["md", "txt", "canvas"])` of `ContentIndex`. -/
def indexExtensions : List Str := ["md".data, "txt".data, "canvas".data]

/-- `this.indexExtensions.has(file.extension)`. -/
def extEligible (e : Str) : Bool := indexExtensions.contains e

/-- The size filter `typeof file.stat?.size === "number" && file.stat.size > this.maxFileBytes`. -/
def sizeTooBig (f : TFile) : Bool :=
  match f.statSize with
  | some n => decide (n > maxFileBytes)
  | none => false

/-- `ContentIndex.indexFileIfEligible`, with the outcome of `vault.cachedRead`
passed explicitly (`none` means the read threw and the `catch` ran). -/
def indexFileIfEligible (f : TFile) (readRes : Option Str) (m : IndexMap) : IndexMap :=
  if extEligible f.extension = false then eraseKey f.path m
  else if sizeTooBig f = true then eraseKey f.path m
  else
    match readRes with
    | some raw => insertKey f.path (toLowerStr raw) m
    | none => eraseKey f.path m

/-- `ContentIndex.remove`. -/
def removeEntry (f : TFile) (m : IndexMap) : IndexMap := eraseKey f.path m

/-- `ContentIndex.rename`: move the entry at `oldPath` (if any) to `f.path`,
without consulting the file content. -/
def renameEntry (oldPath : Str) (f : TFile) (m : IndexMap) : IndexMap :=
  match lookupPath oldPath m with
  | some v => insertKey f.path v (eraseKey oldPath m)
  | none => m

/-- Return value of `ContentIndex.findSnippet` (`{ snippet, at }`). -/
structure Snippet where
  snippet : Str
  atPos : Nat
deriving DecidableEq

/-- `ContentIndex.findSnippet`. `if (!text)` is JS falsiness: an entry whose
stored text is the empty string also short-circuits to `null`. -/
def findSnippet (m : IndexMap) (path query : Str) : Option Snippet :=
  match lookupPath path m with
  | none => none
  | some text =>
    if text.isEmpty then none
    else
      match indexOfSubstr query text with
      | none => none
      | some idx =>
        let start := idx - 40
        let stop := min text.length (idx + query.length + 60)
        let core := (text.drop start).take (stop - start)
        let cleaned := trimWs (collapseWs core)
        let s1 := if 0 < start then "… ".data ++ cleaned else cleaned
        let s2 := if stop < text.length then s1 ++ " …".data else s1
        some ⟨s2, idx⟩

/-- `ContentIndex.contains`. `!!text` is JS truthiness of the stored string. -/
def contains (m : IndexMap) (path query : Str) : Bool :=
  match lookupPath path m with
  | none => false
  | some text => !text.isEmpty && strIncludes text query

/-- The vault mutation events consumed in `FileSearchPlugin.onload`. -/
inductive Event where
  | upsert (f : TFile) (readRes : Option Str)
  | remove (f : TFile)
  | rename (oldPath : Str) (f : TFile)
deriving DecidableEq

/-- The event dispatcher of `FileSearchPlugin.onload`: `create`/`modify` call
`indexFileIfEligible`, `delete` calls `remove`, `rename` calls `rename`. -/
def applyEvent (m : IndexMap) : Event → IndexMap
  | .upsert f readRes => indexFileIfEligible f readRes m
  | .remove f => removeEntry f m
  | .rename oldPath f => renameEntry oldPath f m

/-- Run a sequence of events from a given map. -/
def runFrom (m : IndexMap) (es : List Event) : IndexMap := es.foldl applyEvent m

/-- Run a sequence of events from the empty index. -/
def runEvents (es : List Event) : IndexMap := runFrom [] es

/-- Whether an event is an observation of a document (an initial-build visit
or a create/modify notification, i.e. a call of `indexFileIfEligible`). -/
def isObservation : Event → Bool
  | .upsert _ _ => true
  | _ => false

/-- Most recent observation of path `p` in an event sequence, folded over an
accumulator of observations seen so far. -/
def lastObsAux (p : Str) : Option (TFile × Option Str) → List Event → Option (TFile × Option Str)
  | a, [] => a
  | a, Event.upsert f r :: es => lastObsAux p (if f.path = p then some (f, r) else a) es
  | a, Event.remove _ :: es => lastObsAux p a es
  | a, Event.rename _ _ :: es => lastObsAux p a es

/-- Most recent observation of path `p` in an event sequence. -/
def lastObs (p : Str) (es : List Event) : Option (TFile × Option Str) := lastObsAux p none es

/-- Claim C1's condition on the most recent observation: the extension was in
the allowed set, the size filter did not fire, and the read succeeded. -/
def obsIndexed : Option (TFile × Option Str) → Bool
  | none => false
  | some (f, r) => extEligible f.extension && !sizeTooBig f && r.isSome

/-- The map-level effect of one full sequential pass of `buildInitialIndex`
over a catalog of files with their read outcomes. -/
def buildFold (m : IndexMap) (catalog : List (TFile × Option Str)) : IndexMap :=
  catalog.foldl (fun acc fr => indexFileIfEligible fr.1 fr.2 acc) m

/-- State of `ContentIndex` as seen by `buildInitialIndex`: the map plus the
single-flight `building` flag, represented as the remaining work of the
in-flight build (`none` when no build is running). -/
structure BuildState where
  textByPath : IndexMap
  inFlight : Option (List (TFile × Option Str))
deriving DecidableEq

/-- The `this.building` flag. -/
def building (s : BuildState) : Bool := s.inFlight.isSome

/-- Entry of `buildInitialIndex`: `if (this.building) return;` then set the
flag and schedule the full catalog. -/
def beginBuild (catalog : List (TFile × Option Str)) (s : BuildState) : BuildState :=
  if building s then s else { s with inFlight := some catalog }

/-- One step of the build loop; the `finally` clears the flag at the end. -/
def stepBuild (s : BuildState) : BuildState :=
  match s.inFlight with
  | none => s
  | some [] => { s with inFlight := none }
  | some ((f, r) :: rest) =>
    { textByPath := indexFileIfEligible f r s.textByPath, inFlight := some rest }

/-- The `matchIn` tag of a search result. -/
inductive MatchIn where
  | path
  | content
deriving DecidableEq

/-- The `SearchResult` record of the modal. -/
structure SearchResult where
  file : TFile
  isOpen : Bool
  isActive : Bool
  matchIn : MatchIn
  snippet : Option Str
deriving DecidableEq

/-- The comparator passed to `results.sort` in `getSuggestions`. -/
def cmpResult (a b : SearchResult) : Int :=
  if a.isActive ≠ b.isActive then (if a.isActive then -1 else 1)
  else if a.isOpen ≠ b.isOpen then (if a.isOpen then -1 else 1)
  else if a.matchIn ≠ b.matchIn then (if a.matchIn = MatchIn.path then -1 else 1)
  else if a.file.path.length ≠ b.file.path.length then
    (a.file.path.length : Int) - (b.file.path.length : Int)
  else lexCompare a.file.path b.file.path

/-- The `a` sorts no later than `b` relation induced by the code's comparator. -/
def leCode (a b : SearchResult) : Bool := decide (cmpResult a b ≤ 0)

/-- Insert an element into a sorted list, after any element it ties with. -/
def insertLE {α : Type} (le : α → α → Bool) (x : α) : List α → List α
  | [] => [x]
  | y :: ys => if le x y then x :: y :: ys else y :: insertLE le x ys

/-- Stable sort by a boolean relation (model of JS `Array.prototype.sort`,
which the language specification requires to be stable). -/
def stableSortBy {α : Type} (le : α → α → Bool) : List α → List α
  | [] => []
  | x :: xs => insertLE le x (stableSortBy le xs)

/-- The sort-and-cap stage of `getSuggestions`: `results.sort(...)` followed
by `results.slice(0, 200)`. -/
def rank (results : List SearchResult) : List SearchResult :=
  (stableSortBy leCode results).take 200

/-- Loop body of `getSuggestions` for one file of the catalog. -/
def resultFor (openFilePaths : List Str) (activeFilePath : Option Str) (index : IndexMap)
    (q : Str) (searchContent : Bool) (f : TFile) : Option SearchResult :=
  let isActive := decide (activeFilePath = some f.path)
  let isOpen := decide (f.path ∈ openFilePaths)
  let pathHit := strIncludes (toLowerStr f.path) q
  if pathHit then some ⟨f, isOpen, isActive, MatchIn.path, none⟩
  else if searchContent then
    match findSnippet index f.path q with
    | some sn => some ⟨f, isOpen, isActive, MatchIn.content, some sn.snippet⟩
    | none => none
  else none

/-- The unranked candidate list produced by the enumeration loop of
`getSuggestions` for an already-normalized query. -/
def candidates (allFiles : List TFile) (openFilePaths : List Str) (activeFilePath : Option Str)
    (index : IndexMap) (q : Str) (searchContent : Bool) : List SearchResult :=
  allFiles.filterMap (resultFor openFilePaths activeFilePath index q searchContent)

/-- `FileSearchModal.getSuggestions`. -/
def getSuggestions (allFiles : List TFile) (openFilePaths : List Str) (activeFilePath : Option Str)
    (index : IndexMap) (query : Str) : List SearchResult :=
  let q := toLowerStr (trimWs query)
  if q.isEmpty then []
  else rank (candidates allFiles openFilePaths activeFilePath index q (decide (3 ≤ q.length)))

/-- Code-point lexicographic order on strings, stated from the spec's words
for the final tie-break of claim C3. -/
def lexLE : Str → Str → Bool
  | [], _ => true
  | _ :: _, [] => false
  | a :: as, b :: bs =>
    if a.toNat < b.toNat then true
    else if b.toNat < a.toNat then false
    else lexLE as bs

/-- Claim C3's five-key comparator, stated from the spec's words: `isActive`
true first, then `isOpen` true first, then `Path` before `Content`, then
shorter path first, then lexicographic order on the path. -/
def specLE (a b : SearchResult) : Bool :=
  if a.isActive ≠ b.isActive then a.isActive
  else if a.isOpen ≠ b.isOpen then a.isOpen
  else if a.matchIn ≠ b.matchIn then decide (a.matchIn = MatchIn.path)
  else if a.file.path.length ≠ b.file.path.length then
    decide (a.file.path.length < b.file.path.length)
  else lexLE a.file.path b.file.path

/-- Claim C4's notion of an occurrence: the query occurs in the text at
offset `i`. -/
abbrev occursAt (query text : Str) (i : Nat) : Prop :=
  query.isPrefixOf (text.drop i) = true

/-- Claim C4's described snippet construction for a match at offset `i`:
window from `max(0, i - 40)` to `min(len(text), i + L + 60)`, whitespace
runs collapsed, trimmed, with an ellipsis marker prepended exactly when the
window start is greater than 0 and appended exactly when the window end is
less than `len(text)`. -/
def specSnippetText (text query : Str) (i : Nat) : Str :=
  let ws := (max 0 ((i : Int) - 40)).toNat
  let we := min text.length (i + query.length + 60)
  let cleaned := trimWs (collapseWs ((text.drop ws).take (we - ws)))
  let s1 := if 0 < ws then "… ".data ++ cleaned else cleaned
  if we < text.length then s1 ++ " …".data else s1

/-! ### Association-list map lemmas -/

theorem lookupPath_eraseKey_self (p : Str) (m : IndexMap) :
    lookupPath p (eraseKey p m) = none := by
  induction m with
  | nil => rfl
  | cons kv rest ih =>
    obtain ⟨k, v⟩ := kv
    by_cases h : k = p
    · simpa [eraseKey, h] using ih
    · simpa [eraseKey, lookupPath, h] using ih

theorem lookupPath_eraseKey_ne {p q : Str} (h : q ≠ p) (m : IndexMap) :
    lookupPath q (eraseKey p m) = lookupPath q m := by
  induction m with
  | nil => rfl
  | cons kv rest ih =>
    obtain ⟨k, v⟩ := kv
    by_cases hk : k = p
    · have hkq : k ≠ q := by
        intro hq
        exact h (hq ▸ hk ▸ rfl)
      simp [eraseKey, lookupPath, hk, hkq, Ne.symm h, ih]
    · by_cases hq : k = q
      · simp [eraseKey, lookupPath, hk, hq, h, ih]
      · simp [eraseKey, lookupPath, hk, hq, ih]

theorem lookupPath_insertKey_self (p v : Str) (m : IndexMap) :
    lookupPath p (insertKey p v m) = some v := by
  simp [insertKey, lookupPath]

theorem lookupPath_insertKey_ne {p q : Str} (h : q ≠ p) (v : Str) (m : IndexMap) :
    lookupPath q (insertKey p v m) = lookupPath q m := by
  have hpq : p ≠ q := fun hh => h hh.symm
  simp [insertKey, lookupPath, hpq, lookupPath_eraseKey_ne h]

theorem eraseKey_eraseKey (p : Str) (m : IndexMap) :
    eraseKey p (eraseKey p m) = eraseKey p m := by
  induction m with
  | nil => rfl
  | cons kv rest ih =>
    obtain ⟨k, v⟩ := kv
    by_cases h : k = p
    · simp [eraseKey, h, ih]
    · simp [eraseKey, h, ih]

theorem eraseKey_insertKey (p v : Str) (m : IndexMap) :
    eraseKey p (insertKey p v m) = eraseKey p m := by
  simp [insertKey, eraseKey, eraseKey_eraseKey]

theorem insertKey_insertKey (p v : Str) (m : IndexMap) :
    insertKey p v (insertKey p v m) = insertKey p v m := by
  simp [insertKey, eraseKey, eraseKey_eraseKey]

/-! ### Lemmas on `indexFileIfEligible` -/

theorem indexFileIfEligible_read_failure (f : TFile) (m : IndexMap) :
    indexFileIfEligible f none m = eraseKey f.path m := by
  unfold indexFileIfEligible
  split
  · rfl
  · split
    · rfl
    · rfl

theorem lookupPath_indexFileIfEligible_ne {p : Str} {f : TFile} (h : p ≠ f.path)
    (readRes : Option Str) (m : IndexMap) :
    lookupPath p (indexFileIfEligible f readRes m) = lookupPath p m := by
  unfold indexFileIfEligible
  split
  · exact lookupPath_eraseKey_ne h m
  · split
    · exact lookupPath_eraseKey_ne h m
    · cases readRes with
      | some raw => exact lookupPath_insertKey_ne h _ m
      | none => exact lookupPath_eraseKey_ne h m

theorem isSome_lookupPath_indexFileIfEligible_self (f : TFile) (readRes : Option Str)
    (m : IndexMap) :
    (lookupPath f.path (indexFileIfEligible f readRes m)).isSome
      = (extEligible f.extension && !sizeTooBig f && readRes.isSome) := by
  unfold indexFileIfEligible
  cases hext : extEligible f.extension with
  | false => simp [hext, lookupPath_eraseKey_self]
  | true =>
    cases hsize : sizeTooBig f with
    | true => simp [hext, hsize, lookupPath_eraseKey_self]
    | false =>
      cases readRes with
      | some raw => simp [hext, hsize, lookupPath_insertKey_self]
      | none => simp [hext, hsize, lookupPath_eraseKey_self]

theorem indexFileIfEligible_idem (f : TFile) (readRes : Option Str) (m : IndexMap) :
    indexFileIfEligible f readRes (indexFileIfEligible f readRes m)
      = indexFileIfEligible f readRes m := by
  unfold indexFileIfEligible
  cases hext : extEligible f.extension with
  | false => simp [hext, eraseKey_eraseKey]
  | true =>
    cases hsize : sizeTooBig f with
    | true => simp [hext, hsize, eraseKey_eraseKey]
    | false =>
      cases readRes with
      | some raw => simp [hext, hsize, insertKey_insertKey]
      | none => simp [hext, hsize, eraseKey_eraseKey]

/-! ### Substring search lemmas -/

theorem isPrefixOf_iff_append (l₁ l₂ : Str) :
    l₁.isPrefixOf l₂ = true ↔ ∃ t, l₁ ++ t = l₂ := by
  rw [ List.isPrefixOf_iff_prefix]
  exact Iff.rfl

theorem infix_cons_split {pat rest : Str} {c : Char} :
    pat <:+: (c :: rest) ↔ (∃ t, pat ++ t = c :: rest) ∨ pat <:+: rest := by
  constructor
  · rintro ⟨s, t, h⟩
    cases s with
    | nil => exact Or.inl ⟨t, by simpa using h⟩
    | cons a s2 =>
      right
      simp only [List.cons_append, List.cons.injEq] at h
      exact ⟨s2, t, h.2⟩
  · rintro (⟨t, h⟩ | ⟨s, t, h⟩)
    · exact ⟨[], t, by simpa using h⟩
    · exact ⟨c :: s, t, by simp [h]⟩

theorem isSome_indexOfSubstr_iff (pat : Str) :
    ∀ s : Str, (indexOfSubstr pat s).isSome = true ↔ pat <:+: s := by
  intro s
  induction s with
  | nil =>
    cases pat with
    | nil =>
      simp only [indexOfSubstr, List.isPrefixOf]
      exact ⟨fun _ => ⟨[], [], rfl⟩, fun _ => by simp⟩
    | cons a as =>
      simp only [indexOfSubstr, List.isPrefixOf]
      constructor
      · intro h
        simp at h
      · rintro ⟨s, t, h⟩
        simp at h
  | cons c rest ih =>
    simp only [indexOfSubstr]
    cases hp : pat.isPrefixOf (c :: rest) with
    | true =>
      obtain ⟨t, ht⟩ := (isPrefixOf_iff_append pat (c :: rest)).mp hp
      simp only [hp, if_true]
      exact ⟨fun _ => ⟨[], t, by simpa using ht⟩, fun _ => rfl⟩
    | false =>
      have hmap : ((indexOfSubstr pat rest).map (fun n => n + 1)).isSome
          = (indexOfSubstr pat rest).isSome := by
        cases indexOfSubstr pat rest <;> rfl
      have hnp : ¬ ∃ t, pat ++ t = c :: rest := by
        rw [← isPrefixOf_iff_append]
        simp [hp]
      simp only [Bool.false_eq_true, if_false, hmap, ih]
      constructor
      · intro h
        exact infix_cons_split.mpr (Or.inr h)
      · intro h
        exact (infix_cons_split.mp h).resolve_left hnp

theorem indexOfSubstr_eq_some_of_first {pat : Str} :
    ∀ (s : Str) (i : Nat), occursAt pat s i → (∀ j, j < i → ¬ occursAt pat s j) →
      indexOfSubstr pat s = some i := by
  intro s
  induction s with
  | nil =>
    intro i h hmin
    have hpre : pat.isPrefixOf [] = true := by simpa [occursAt] using h
    have hi : i = 0 := by
      by_contra hne
      exact hmin 0 (Nat.pos_of_ne_zero hne) (by simpa [occursAt] using hpre)
    subst hi
    simp [indexOfSubstr, hpre]
  | cons c rest ih =>
    intro i h hmin
    cases i with
    | zero =>
      have hpre : pat.isPrefixOf (c :: rest) = true := by simpa [occursAt] using h
      simp [indexOfSubstr, hpre]
    | succ k =>
      have h0 : pat.isPrefixOf (c :: rest) = false := by
        have hno := hmin 0 (Nat.succ_pos k)
        simp only [occursAt, List.drop_zero] at hno
        exact Bool.eq_false_iff.mpr hno
      have hrest : indexOfSubstr pat rest = some k := by
        apply ih k
        · simpa [occursAt, List.drop_succ_cons] using h
        · intro j hj hocc
          exact hmin (j + 1) (Nat.succ_lt_succ hj)
            (by simpa [occursAt, List.drop_succ_cons] using hocc)
      simp [indexOfSubstr, h0, hrest]

theorem indexOfSubstr_eq_none_of_never {pat : Str} :
    ∀ s : Str, (∀ j, ¬ occursAt pat s j) → indexOfSubstr pat s = none := by
  intro s
  induction s with
  | nil =>
    intro hnever
    have h0 : pat.isPrefixOf [] = false := by
      have := hnever 0
      simp only [occursAt, List.drop_zero] at this
      exact Bool.eq_false_iff.mpr this
    simp [indexOfSubstr, h0]
  | cons c rest ih =>
    intro hnever
    have h0 : pat.isPrefixOf (c :: rest) = false := by
      have := hnever 0
      simp only [occursAt, List.drop_zero] at this
      exact Bool.eq_false_iff.mpr this
    have hrest : indexOfSubstr pat rest = none := by
      apply ih
      intro j hocc
      exact hnever (j + 1) (by simpa [occursAt, List.drop_succ_cons] using hocc)
    simp [indexOfSubstr, h0, hrest]

/-! ### Stable sort lemmas -/

theorem mem_insertLE {α : Type} (le : α → α → Bool) (x y : α) :
    ∀ l : List α, y ∈ insertLE le x l ↔ y = x ∨ y ∈ l := by
  intro l
  induction l with
  | nil => simp [insertLE]
  | cons z zs ih =>
    simp only [insertLE]
    by_cases h : le x z = true
    · simp [h]
    · simp [h, ih]
      tauto

theorem mem_stableSortBy {α : Type} (le : α → α → Bool) (y : α) :
    ∀ l : List α, y ∈ stableSortBy le l ↔ y ∈ l := by
  intro l
  induction l with
  | nil => simp [stableSortBy]
  | cons z zs ih =>
    simp only [stableSortBy, mem_insertLE, ih, List.mem_cons]

theorem length_insertLE {α : Type} (le : α → α → Bool) (x : α) :
    ∀ l : List α, (insertLE le x l).length = l.length + 1 := by
  intro l
  induction l with
  | nil => rfl
  | cons z zs ih =>
    simp only [insertLE]
    by_cases h : le x z = true
    · simp [h]
    · simp [h, ih]

theorem length_stableSortBy {α : Type} (le : α → α → Bool) :
    ∀ l : List α, (stableSortBy le l).length = l.length := by
  intro l
  induction l with
  | nil => rfl
  | cons z zs ih => simp [stableSortBy, length_insertLE, ih]

theorem stableSortBy_congr {α : Type} {le₁ le₂ : α → α → Bool}
    (h : ∀ a b, le₁ a b = le₂ a b) (l : List α) :
    stableSortBy le₁ l = stableSortBy le₂ l := by
  have hfun : le₁ = le₂ := funext fun a => funext fun b => h a b
  rw [hfun]

/-! ### Comparator equivalence -/

theorem lexCompare_le_zero_eq_lexLE : ∀ s t : Str, decide (lexCompare s t ≤ 0) = lexLE s t := by
  intro s
  induction s with
  | nil =>
    intro t
    cases t <;> simp [lexCompare, lexLE]
  | cons a as ih =>
    intro t
    cases t with
    | nil => simp [lexCompare, lexLE]
    | cons b bs =>
      simp only [lexCompare, lexLE]
      by_cases h1 : a.toNat < b.toNat
      · simp [h1]
      · by_cases h2 : b.toNat < a.toNat
        · simp [h1, h2]
        · simp [h1, h2, ih bs]

theorem leCode_eq_specLE (a b : SearchResult) : leCode a b = specLE a b := by
  unfold leCode cmpResult specLE
  by_cases h1 : a.isActive = b.isActive
  · by_cases h2 : a.isOpen = b.isOpen
    · by_cases h3 : a.matchIn = b.matchIn
      · by_cases h4 : a.file.path.length = b.file.path.length
        · simp [h1, h2, h3, h4, lexCompare_le_zero_eq_lexLE]
        · simp only [h1, h2, h3, h4, ne_eq, not_true_eq_false, not_false_eq_true,
            if_false, if_true, ite_not]
          rw [decide_eq_decide.mpr]
          omega
      · simp only [h1, h2, h3, ne_eq, not_true_eq_false, not_false_eq_true, if_false, if_true,
          ite_not]
        cases hm : a.matchIn <;> cases hmb : b.matchIn <;> simp_all
    · simp only [h1, h2, ne_eq, not_true_eq_false, not_false_eq_true, if_false, if_true, ite_not]
      cases ho : a.isOpen <;> cases hob : b.isOpen <;> simp_all
  · simp only [h1, ne_eq, not_false_eq_true, if_true, ite_not]
    cases ha : a.isActive <;> cases hb : b.isActive <;> simp_all

/-! ### Event-trace invariant for observation-only traces -/

theorem runFrom_obs_invariant :
    ∀ es : List Event, es.all isObservation = true →
      ∀ (m : IndexMap) (a : Str → Option (TFile × Option Str)),
        (∀ p, (lookupPath p m).isSome = obsIndexed (a p)) →
        ∀ p, (lookupPath p (runFrom m es)).isSome = obsIndexed (lastObsAux p (a p) es) := by
  intro es
  induction es with
  | nil =>
    intro _ m a hm p
    simpa [runFrom, lastObsAux] using hm p
  | cons e es ih =>
    intro hall m a hm p
    rw [List.all_cons, Bool.and_eq_true] at hall
    cases e with
    | upsert f r =>
      have hm2 : ∀ q, (lookupPath q (indexFileIfEligible f r m)).isSome
          = obsIndexed (if f.path = q then some (f, r) else a q) := by
        intro q
        by_cases hq : f.path = q
        · subst hq
          simp [isSome_lookupPath_indexFileIfEligible_self, obsIndexed]
        · rw [if_neg hq, lookupPath_indexFileIfEligible_ne (fun hh => hq hh.symm) r m]
          exact hm q
      have hstep := ih hall.2 (indexFileIfEligible f r m)
        (fun q => if f.path = q then some (f, r) else a q) hm2 p
      simpa [runFrom, applyEvent, lastObsAux] using hstep
    | remove f => simp [isObservation] at hall
    | rename o f => simp [isObservation] at hall

/-! ### No index entry means no Content classification -/

theorem matchIn_path_of_no_entry
    (allFiles : List TFile) (openFilePaths : List Str) (activeFilePath : Option Str)
    (m : IndexMap) (query : Str) (r : SearchResult)
    (hr : r ∈ getSuggestions allFiles openFilePaths activeFilePath m query)
    (hnone : lookupPath r.file.path m = none) : r.matchIn = MatchIn.path := by
  unfold getSuggestions at hr
  by_cases hq : (toLowerStr (trimWs query)).isEmpty
  · rw [if_pos hq] at hr
    exact absurd hr (List.not_mem_nil r)
  · rw [if_neg hq] at hr
    unfold rank at hr
    have hr2 := (mem_stableSortBy _ _ _).mp (List.mem_of_mem_take hr)
    obtain ⟨f, hf, hres⟩ := List.mem_filterMap.mp hr2
    unfold resultFor at hres
    by_cases hph : strIncludes (toLowerStr f.path) (toLowerStr (trimWs query)) = true
    · rw [if_pos hph] at hres
      have := Option.some.inj hres
      rw [← this]
    · rw [if_neg hph] at hres
      cases hsc : decide (3 ≤ (toLowerStr (trimWs query)).length) with
      | false =>
        rw [hsc] at hres
        simp at hres
      | true =>
        rw [hsc] at hres
        simp only [if_true] at hres
        cases hfs : findSnippet m f.path (toLowerStr (trimWs query)) with
        | none =>
          rw [hfs] at hres
          simp at hres
        | some sn =>
          rw [hfs] at hres
          have hrf : r.file = f := by
            have := Option.some.inj hres
            rw [← this]
          rw [hrf] at hnone
          unfold findSnippet at hfs
          rw [hnone] at hfs
          simp at hfs

/-! ### Lowercased text has lowercase substrings -/

theorem toLowerStr_of_infix {Q text : Str} (hlower : toLowerStr text = text)
    (hsub : Q <:+: text) : toLowerStr Q = Q := by
  obtain ⟨s, t, rfl⟩ := hsub
  simp only [toLowerStr, List.map_append] at hlower
  have h1 := List.append_inj hlower (by simp [toLowerStr])
  have h2 := List.append_inj h1.1 (by simp [toLowerStr])
  exact h2.2

/-! ### Unfolding `getSuggestions` for an already-normalized query -/

theorem getSuggestions_eq_rank (allFiles : List TFile) (openFilePaths : List Str)
    (activeFilePath : Option Str) (m : IndexMap) {query : Str}
    (hq : toLowerStr (trimWs query) = query) (hne : query ≠ []) :
    getSuggestions allFiles openFilePaths activeFilePath m query
      = rank (candidates allFiles openFilePaths activeFilePath m query
          (decide (3 ≤ query.length))) := by
  unfold getSuggestions
  rw [hq]
  have hie : query.isEmpty = false := by
    cases query with
    | nil => exact absurd rfl hne
    | cons a as => rfl
  simp only [hie, Bool.false_eq_true, if_false]

/-! ### Claim C1 -/

/-- Claim C1 fails as stated: after indexing `a.md` and renaming it to `a.pdf`,
an entry exists for path `a.pdf` although no initial-build or create/modify
observation of that path ever happened (so the stated iff is false there), and
the `a.pdf` document — whose extension is outside the allowed set — is returned
classified as a Content match. -/
theorem claim_C1_counterexample :
    ¬ (((lookupPath "a.pdf".data (runEvents
          [Event.upsert ⟨"a.md".data, "md".data, some 10⟩ (some "hello world".data),
           Event.rename "a.md".data ⟨"a.pdf".data, "pdf".data, some 10⟩])).isSome = true)
        ↔ obsIndexed (lastObs "a.pdf".data
            [Event.upsert ⟨"a.md".data, "md".data, some 10⟩ (some "hello world".data),
             Event.rename "a.md".data ⟨"a.pdf".data, "pdf".data, some 10⟩]) = true)
    ∧ extEligible "pdf".data = false
    ∧ (getSuggestions [⟨"a.pdf".data, "pdf".data, some 10⟩] [] none
        (runEvents
          [Event.upsert ⟨"a.md".data, "md".data, some 10⟩ (some "hello world".data),
           Event.rename "a.md".data ⟨"a.pdf".data, "pdf".data, some 10⟩])
        "hello".data).map (fun r => r.matchIn) = [MatchIn.content] :=
  ⟨by decide, by decide, by decide⟩

/-- Claim C1 (amended): over event traces consisting only of observations
(initial-build visits and create/modify events — no delete or rename events),
an IndexedText entry exists for a path iff the most recent observation of that
path found its extension in the allowed set {md, txt, canvas}, its recorded
byte size not over 1,000,000 (a missing size passes the filter), and its text
successfully readable; and in every index state, a document whose path has no
entry never appears in search results classified as a Content match. -/
theorem claim_C1 :
    (∀ es : List Event, es.all isObservation = true →
      ∀ p : Str, (lookupPath p (runEvents es)).isSome = obsIndexed (lastObs p es))
    ∧ (∀ (allFiles : List TFile) (openFilePaths : List Str) (activeFilePath : Option Str)
        (m : IndexMap) (query : Str) (r : SearchResult),
        r ∈ getSuggestions allFiles openFilePaths activeFilePath m query →
        lookupPath r.file.path m = none → r.matchIn = MatchIn.path) := by
  constructor
  · intro es hall p
    simpa [runEvents, lastObs] using
      runFrom_obs_invariant es hall [] (fun _ => none) (fun _ => rfl) p
  · exact matchIn_path_of_no_entry

/-- Concrete instance of claim C1's amended iff on a one-event observation
trace. -/
theorem claim_C1_witness :
    ([Event.upsert (⟨"a.md".data, "md".data, some 10⟩ : TFile) (some "Hi".data)].all
        isObservation = true)
    ∧ (lookupPath "a.md".data (runEvents
          [Event.upsert ⟨"a.md".data, "md".data, some 10⟩ (some "Hi".data)])).isSome
        = obsIndexed (lastObs "a.md".data
            [Event.upsert ⟨"a.md".data, "md".data, some 10⟩ (some "Hi".data)]) :=
  ⟨by decide, claim_C1.1
    [Event.upsert ⟨"a.md".data, "md".data, some 10⟩ (some "Hi".data)] (by decide)
    "a.md".data⟩

/-! ### Claim C2 -/

/-- Claim C2 fails as stated: the query `" ab"` has length 3 and is a substring
of the indexed lowercase text `"x ab"` of `doc.md`, whose path does not contain
`" ab"`, yet searching for `" ab"` returns no result at all: `getSuggestions`
trims the query to the 2-character `"ab"`, which disables content search. -/
theorem claim_C2_counterexample :
    3 ≤ " ab".data.length
    ∧ " ab".data <:+: "x ab".data
    ∧ lookupPath "doc.md".data [("doc.md".data, "x ab".data)] = some "x ab".data
    ∧ toLowerStr "x ab".data = "x ab".data
    ∧ strIncludes (toLowerStr "doc.md".data) " ab".data = false
    ∧ getSuggestions [⟨"doc.md".data, "md".data, some 4⟩] [] none
        [("doc.md".data, "x ab".data)] " ab".data = [] :=
  ⟨by decide, ⟨"x".data, [], by decide⟩, by decide, by decide, by decide, by decide⟩

/-- Claim C2 (amended): for every indexed document D whose stored text is
lowercase, and every substring Q of that text with length at least 3 that is
unchanged by trimming, if D's path does not contain Q case-insensitively then
the enumeration produces a result for D classified Content and carrying a
snippet; it appears in the returned suggestions whenever at most 200
candidates matched (the 200-cap may otherwise drop it). -/
theorem claim_C2 (allFiles : List TFile) (openFilePaths : List Str)
    (activeFilePath : Option Str) (m : IndexMap) (D : TFile) (text Q : Str)
    (hD : D ∈ allFiles)
    (hlook : lookupPath D.path m = some text)
    (hlower : toLowerStr text = text)
    (hsub : Q <:+: text)
    (hlen : 3 ≤ Q.length)
    (htrim : trimWs Q = Q)
    (hpath : strIncludes (toLowerStr D.path) Q = false) :
    (∃ r ∈ candidates allFiles openFilePaths activeFilePath m Q true,
        r.file = D ∧ r.matchIn = MatchIn.content ∧ r.snippet.isSome = true)
    ∧ ((candidates allFiles openFilePaths activeFilePath m Q true).length ≤ 200 →
        ∃ r ∈ getSuggestions allFiles openFilePaths activeFilePath m Q,
          r.file = D ∧ r.matchIn = MatchIn.content ∧ r.snippet.isSome = true) := by
  have hQlower : toLowerStr Q = Q := toLowerStr_of_infix hlower hsub
  have hQne : Q ≠ [] := by
    intro h
    rw [h] at hlen
    simp at hlen
  have htextne : text ≠ [] := by
    obtain ⟨s, t, hst⟩ := hsub
    intro h
    rw [h] at hst
    simp [List.append_eq_nil] at hst
    exact hQne hst.2.1
  have hie : text.isEmpty = false := by
    cases text with
    | nil => exact absurd rfl htextne
    | cons a as => rfl
  have hsome : (indexOfSubstr Q text).isSome = true := (isSome_indexOfSubstr_iff Q text).mpr hsub
  obtain ⟨idx, hidx⟩ := Option.isSome_iff_exists.mp hsome
  have hfs : ∃ sn, findSnippet m D.path Q = some sn := by
    unfold findSnippet
    rw [hlook]
    simp only [hie, Bool.false_eq_true, if_false]
    rw [hidx]
    exact ⟨_, rfl⟩
  obtain ⟨sn, hsn⟩ := hfs
  have hres : resultFor openFilePaths activeFilePath m Q true D
      = some ⟨D, decide (D.path ∈ openFilePaths), decide (activeFilePath = some D.path),
          MatchIn.content, some sn.snippet⟩ := by
    unfold resultFor
    simp only [hpath, Bool.false_eq_true, if_false, if_true, hsn]
  have hmem : (⟨D, decide (D.path ∈ openFilePaths), decide (activeFilePath = some D.path),
      MatchIn.content, some sn.snippet⟩ : SearchResult)
      ∈ candidates allFiles openFilePaths activeFilePath m Q true :=
    List.mem_filterMap.mpr ⟨D, hD, hres⟩
  refine ⟨⟨⟨D, decide (D.path ∈ openFilePaths), decide (activeFilePath = some D.path),
    MatchIn.content, some sn.snippet⟩, hmem, rfl, rfl, rfl⟩, ?_⟩
  intro hcap
  have hdec : decide (3 ≤ Q.length) = true := decide_eq_true hlen
  have hgs : getSuggestions allFiles openFilePaths activeFilePath m Q
      = rank (candidates allFiles openFilePaths activeFilePath m Q true) := by
    rw [getSuggestions_eq_rank allFiles openFilePaths activeFilePath m
      (by rw [htrim]; exact hQlower) hQne, hdec]
  have hlensort : (stableSortBy leCode
      (candidates allFiles openFilePaths activeFilePath m Q true)).length ≤ 200 := by
    rw [length_stableSortBy]
    exact hcap
  refine ⟨⟨D, decide (D.path ∈ openFilePaths), decide (activeFilePath = some D.path),
    MatchIn.content, some sn.snippet⟩, ?_, rfl, rfl, rfl⟩
  rw [hgs]
  unfold rank
  rw [List.take_of_length_le hlensort]
  exact (mem_stableSortBy _ _ _).mpr hmem

/-- Concrete instance of claim C2's amended statement: the query `abc` occurs
in the stored text of `n.md`, whose path does not contain it, and a Content
result with a snippet is produced and returned. -/
theorem claim_C2_witness :
    (∃ r ∈ candidates [(⟨"n.md".data, "md".data, some 4⟩ : TFile)] [] none
        [("n.md".data, "xabc".data)] "abc".data true,
      r.file = (⟨"n.md".data, "md".data, some 4⟩ : TFile)
        ∧ r.matchIn = MatchIn.content ∧ r.snippet.isSome = true)
    ∧ (((candidates [(⟨"n.md".data, "md".data, some 4⟩ : TFile)] [] none
          [("n.md".data, "xabc".data)] "abc".data true).length ≤ 200) →
        ∃ r ∈ getSuggestions [(⟨"n.md".data, "md".data, some 4⟩ : TFile)] [] none
            [("n.md".data, "xabc".data)] "abc".data,
          r.file = (⟨"n.md".data, "md".data, some 4⟩ : TFile)
            ∧ r.matchIn = MatchIn.content ∧ r.snippet.isSome = true) :=
  claim_C2 [⟨"n.md".data, "md".data, some 4⟩] [] none [("n.md".data, "xabc".data)]
    ⟨"n.md".data, "md".data, some 4⟩ "xabc".data "abc".data
    (by decide) (by decide) (by decide) ⟨"x".data, [], by decide⟩
    (by decide) (by decide) (by decide)

/-! ### Claim C3 -/

/-- Claim C3: the ranking stage equals stably sorting the candidates by the
spec's five-key comparator — isActive first, then isOpen, then Path before
Content, then shorter path, then lexicographic path order — followed by
truncation to the first 200 elements; so at most 200 results are ever
returned, and exactly the first 200 in this order when 200 or more
candidates match. -/
theorem claim_C3 (results : List SearchResult) :
    rank results = (stableSortBy specLE results).take 200
    ∧ (rank results).length ≤ 200
    ∧ (200 ≤ results.length → (rank results).length = 200) := by
  have hsort : stableSortBy leCode results = stableSortBy specLE results :=
    stableSortBy_congr leCode_eq_specLE results
  refine ⟨by rw [rank, hsort], ?_, ?_⟩
  · rw [rank, List.length_take]
    exact min_le_left _ _
  · intro h200
    rw [rank, List.length_take, length_stableSortBy]
    omega

/-- Concrete instance of claim C3's cap: 500 matching candidates produce
exactly 200 results. -/
theorem claim_C3_witness :
    200 ≤ (List.replicate 500
      (⟨⟨"a.md".data, "md".data, some 1⟩, false, false, MatchIn.path, none⟩ : SearchResult)).length
    ∧ (rank (List.replicate 500
        ⟨⟨"a.md".data, "md".data, some 1⟩, false, false, MatchIn.path, none⟩)).length = 200 :=
  ⟨by simp, (claim_C3 (List.replicate 500
      ⟨⟨"a.md".data, "md".data, some 1⟩, false, false, MatchIn.path, none⟩)).2.2 (by simp)⟩

/-! ### Claim C4 -/

/-- Claim C4: for a stored text and a non-empty query, `findSnippet` returns
exactly the spec's snippet built at the first (lowest-offset) occurrence `i` —
window from max(0, i−40) to min(len(text), i+L+60), whitespace runs collapsed
to single spaces, trimmed, an ellipsis marker prepended exactly when the
window start exceeds 0 and appended exactly when the window end is below
len(text) — together with the offset `i`; and it is absent when the query does
not occur in the stored text. -/
theorem claim_C4 (m : IndexMap) (p text query : Str) (i : Nat)
    (hlook : lookupPath p m = some text) (hq : query ≠ []) :
    ((occursAt query text i ∧ ∀ j, j < i → ¬ occursAt query text j) →
      findSnippet m p query = some ⟨specSnippetText text query i, i⟩)
    ∧ ((∀ j, ¬ occursAt query text j) → findSnippet m p query = none) := by
  constructor
  · rintro ⟨hocc, hmin⟩
    have htextne : text ≠ [] := by
      intro h
      rw [h] at hocc
      have hpre : query.isPrefixOf [] = true := by simpa [occursAt] using hocc
      obtain ⟨t, ht⟩ := (isPrefixOf_iff_append _ _).mp hpre
      simp [List.append_eq_nil] at ht
      exact hq ht.1
    have hie : text.isEmpty = false := by
      cases text with
      | nil => exact absurd rfl htextne
      | cons a as => rfl
    unfold findSnippet
    rw [hlook]
    simp only [hie, Bool.false_eq_true, if_false]
    rw [indexOfSubstr_eq_some_of_first text i hocc hmin]
    simp only [specSnippetText]
    rw [show ((max 0 ((i : Int) - 40)).toNat) = i - 40 from by omega]
  · intro hnever
    unfold findSnippet
    rw [hlook]
    cases hie : text.isEmpty with
    | true => simp [hie]
    | false =>
      simp only [hie, Bool.false_eq_true, if_false]
      rw [indexOfSubstr_eq_none_of_never text hnever]

/-- Concrete instance of claim C4: the snippet for `world` in the stored text
`hello world` is the spec snippet at offset 6. -/
theorem claim_C4_witness :
    ("world".data ≠ [])
    ∧ findSnippet [("n.md".data, "hello world".data)] "n.md".data "world".data
        = some ⟨specSnippetText "hello world".data "world".data 6, 6⟩ :=
  ⟨by decide,
    (claim_C4 [("n.md".data, "hello world".data)] "n.md".data "hello world".data
      "world".data 6 (by decide) (by decide)).1 ⟨by decide, by decide⟩⟩

/-! ### Claim C5 -/

/-- Claim C5: while a build is in flight (`building` is set), calling
`buildInitialIndex` again returns immediately: the whole state — index map and
pending work — is unchanged, so no second build starts and the request is
dropped rather than queued; the state holds at most one in-flight build by
construction. -/
theorem claim_C5 (catalog : List (TFile × Option Str)) (s : BuildState)
    (h : building s = true) : beginBuild catalog s = s := by
  simp [beginBuild, h]

/-- Concrete instance of claim C5: a second build request during an in-flight
build leaves the state untouched. -/
theorem claim_C5_witness :
    building (⟨[], some []⟩ : BuildState) = true
    ∧ beginBuild [] (⟨[], some []⟩ : BuildState) = ⟨[], some []⟩ :=
  ⟨rfl, claim_C5 [] ⟨[], some []⟩ rfl⟩

/-! ### Claim C6 -/

/-- Claim C6: a failed read makes `indexFileIfEligible` a plain deletion of the
path's entry (for every prior state, so it raises nothing and never creates an
entry), and during a full sequential build a failing document does not abort
the pass — the build continues over the entire remaining catalog from the
state in which the failing document was merely dropped. -/
theorem claim_C6 (m : IndexMap) (pre post : List (TFile × Option Str)) (f : TFile) :
    indexFileIfEligible f none m = eraseKey f.path m
    ∧ buildFold m (pre ++ (f, none) :: post)
        = buildFold (eraseKey f.path (buildFold m pre)) post := by
  refine ⟨indexFileIfEligible_read_failure f m, ?_⟩
  unfold buildFold
  rw [List.foldl_append]
  simp only [List.foldl_cons]
  rw [indexFileIfEligible_read_failure]

/-! ### Claim C7 -/

/-- Claim C7: if an entry exists at the old path, `rename` moves its stored
value unchanged to the new path and deletes the old key, leaving every other
path's entry untouched and never consulting the reader (the embedding of
`rename` takes no read outcome at all, so a failing read at the new path
cannot affect it); if no entry exists at the old path the state is unchanged. -/
theorem claim_C7 (m : IndexMap) (oldPath : Str) (f : TFile) :
    (∀ v, lookupPath oldPath m = some v →
      ∀ p, lookupPath p (renameEntry oldPath f m)
        = if p = f.path then some v else if p = oldPath then none else lookupPath p m)
    ∧ (lookupPath oldPath m = none → renameEntry oldPath f m = m) := by
  constructor
  · intro v hv p
    unfold renameEntry
    rw [hv]
    by_cases hpf : p = f.path
    · rw [if_pos hpf, hpf, lookupPath_insertKey_self]
    · rw [if_neg hpf, lookupPath_insertKey_ne hpf]
      by_cases hpo : p = oldPath
      · rw [if_pos hpo, hpo, lookupPath_eraseKey_self]
      · rw [if_neg hpo, lookupPath_eraseKey_ne hpo]
  · intro hnone
    unfold renameEntry
    rw [hnone]

/-- Concrete instance of claim C7: after renaming `a.md` to `b.md` the stored
text is found unchanged under the new path. -/
theorem claim_C7_witness :
    lookupPath "b.md".data
        (renameEntry "a.md".data (⟨"b.md".data, "md".data, some 1⟩ : TFile)
          [("a.md".data, "x".data)])
      = some "x".data := by
  have h := (claim_C7 [("a.md".data, "x".data)] "a.md".data
    ⟨"b.md".data, "md".data, some 1⟩).1 "x".data (by decide) "b.md".data
  simpa using h

/-! ### Claim C8 -/

/-- Claim C8 fails as stated: an entry for `a.md` exists with stored text `""`,
and the empty query is a substring of `""`, yet `contains` returns false —
`!!text` in the code treats the empty stored string as falsy. -/
theorem claim_C8_counterexample :
    lookupPath "a.md".data [("a.md".data, ([] : Str))] = some []
    ∧ ([] : Str) <:+: ([] : Str)
    ∧ contains [("a.md".data, ([] : Str))] "a.md".data [] = false :=
  ⟨by decide, ⟨[], [], rfl⟩, by decide⟩

/-- Claim C8 (amended): `contains(path, query)` returns true iff an entry
exists for the path, its stored text is non-empty, and the text contains the
query as a substring. -/
theorem claim_C8 (m : IndexMap) (path query : Str) :
    contains m path query = true
      ↔ ∃ text, lookupPath path m = some text ∧ text ≠ [] ∧ query <:+: text := by
  unfold contains
  cases hlook : lookupPath path m with
  | none => simp
  | some text =>
    simp only [Option.some.injEq]
    constructor
    · intro h
      rw [Bool.and_eq_true] at h
      have h1 : text.isEmpty = false := by
        cases hie : text.isEmpty
        · rfl
        · rw [hie] at h
          simp at h
      have hne : text ≠ [] := by
        intro he
        rw [he] at h1
        simp at h1
      exact ⟨text, rfl, hne, (isSome_indexOfSubstr_iff query text).mp h.2⟩
    · rintro ⟨t, ht, hne, hinf⟩
      have htt : text = t := ht.symm ▸ rfl
      subst htt
      have h1 : text.isEmpty = false := by
        cases text with
        | nil => exact absurd rfl hne
        | cons a as => rfl
      have h2 : strIncludes text query = true := (isSome_indexOfSubstr_iff query text).mpr hinf
      simp [h1, h2]

/-! ### Claim C9 -/

/-- Claim C9: applying the create/modify handler for the same document twice in
a row, with the external read returning the same outcome both times, yields
the same index state as applying it once. -/
theorem claim_C9 (m : IndexMap) (f : TFile) (readRes : Option Str) :
    applyEvent (applyEvent m (Event.upsert f readRes)) (Event.upsert f readRes)
      = applyEvent m (Event.upsert f readRes) := by
  simpa [applyEvent] using indexFileIfEligible_idem f readRes m

/-! ### Claim C10 -/

/-- Claim C10: for a document whose extension is allowed but whose byte size is
unavailable (`stat.size` not a number), the size limit is skipped entirely and
the document's text is indexed, whatever the length of the read content. -/
theorem claim_C10 (f : TFile) (raw : Str) (m : IndexMap)
    (hext : extEligible f.extension = true) (hsize : f.statSize = none) :
    indexFileIfEligible f (some raw) m = insertKey f.path (toLowerStr raw) m := by
  unfold indexFileIfEligible
  simp [hext, sizeTooBig, hsize]

/-- Concrete instance of claim C10: an `md` file with no recorded size gets its
text indexed. -/
theorem claim_C10_witness :
    extEligible "md".data = true
    ∧ indexFileIfEligible (⟨"a.md".data, "md".data, none⟩ : TFile) (some "Hello".data) []
        = insertKey "a.md".data (toLowerStr "Hello".data) [] :=
  ⟨by decide, claim_C10 ⟨"a.md".data, "md".data, none⟩ "Hello".data [] (by decide) rfl⟩

end SearchFile
